import Mathlib


set_option maxRecDepth 10000
/-!
Verification development for the livestream-archiver service.

The development shallowly embeds the two source files of the repository:

* src/services/livestream_archiver.rs — the per-file pipeline
  (wait_for_file_ready, extract_date_from_filename, process_file);
* src/main.rs — the startup scan, the event loop and the in-memory
  dedup ledger.

Machine integers of the source (u64 sizes, counters) are modelled as Nat;
no overflow is reachable at the magnitudes involved.  Filesystem state is
passed explicitly: an existence predicate on path strings stands for the
output tree, and the side effects of the pipeline are reified as an
explicit effect trace.  Fallible operations return Option or Except.
-/

namespace Archiver

/-- Calendar date-time with second precision, the model of the chrono
NaiveDateTime value produced by extract_date_from_filename.  The year
is an integer because the chrono parser accepts signed years; a second
of 60 stands for the leap-second time chrono builds from it. -/
structure Date where
  year : Int
  month : Nat
  day : Nat
  hour : Nat
  minute : Nat
  second : Nat
deriving DecidableEq

/-- Gregorian leap-year rule, as used by chrono for date validation.
Divisibility by a positive constant agrees between the Lean and Rust
remainder conventions, so the integer modulus is faithful for negative
years as well. -/
def isLeap (y : Int) : Bool :=
  (y % 4 == 0 && y % 100 != 0) || (y % 400 == 0)

/-- Number of days in a month of a given year. -/
def daysInMonth (y : Int) (m : Nat) : Nat :=
  if m = 2 then (if isLeap y then 29 else 28)
  else if m = 4 ∨ m = 6 ∨ m = 9 ∨ m = 11 then 30
  else 31

/-- Validity of a parsed date-time: the checks chrono performs when a
parse with this format is turned into a NaiveDateTime.  The year range
is the NaiveDate range; a second of 60 is accepted as a leap second.
A digit string whose value overflows the parser is collapsed into the
year range check, which rejects every such value anyway. -/
def validDT (d : Date) : Bool :=
  -262144 ≤ d.year && d.year ≤ 262143 &&
  1 ≤ d.month && d.month ≤ 12 &&
  1 ≤ d.day && d.day ≤ daysInMonth d.year d.month &&
  d.hour ≤ 23 && d.minute ≤ 59 && d.second ≤ 60

/-- Decimal digit character for a value below ten. -/
def dig (n : Nat) : Char := Char.ofNat (48 + n)

/-- Test for an ASCII decimal digit character. -/
def isDig (c : Char) : Bool := 48 ≤ c.toNat && c.toNat ≤ 57

/-- Numeric value of an ASCII digit character. -/
def dval (c : Char) : Nat := c.toNat - 48

/-- Fixed-width decimal rendering, most significant digit first.
render k v is the k-digit zero-padded form of v (v below 10 ^ k),
used for the zero-padded format specifiers of the source. -/
def render : Nat → Nat → List Char
  | 0, _ => []
  | k + 1, v => dig (v / 10 ^ k) :: render k (v % 10 ^ k)

/-- Test for a Unicode whitespace character, the model of the Rust
char is_whitespace predicate used by the trim the chrono parser
applies before every numeric field: the 25 code points with the
White_Space property. -/
def isWs (c : Char) : Bool :=
  let n := c.toNat
  (9 ≤ n && n ≤ 13) || n == 32 || n == 133 || n == 160 || n == 5760 ||
  (8192 ≤ n && n ≤ 8202) || n == 8232 || n == 8233 || n == 8239 ||
  n == 8287 || n == 12288

/-- Whether a character list starts with a decimal digit. -/
def headDigit : List Char → Bool
  | [] => false
  | c :: _ => isDig c

/-- Whether a character list starts with a whitespace character. -/
def headWs : List Char → Bool
  | [] => false
  | c :: _ => isWs c

/-- Value of a digit string, most significant digit first. -/
def valDigits (ds : List Char) : Nat :=
  ds.foldl (fun a c => a * 10 + dval c) 0

/-- Greedy digit scan bounded by a maximum width: the digits taken,
at most max of them, and the remaining input.  Models the number scan
of the chrono parser, which reads between one and max digits. -/
def takeDigits : Nat → List Char → List Char × List Char
  | 0, cs => ([], cs)
  | _ + 1, [] => ([], [])
  | w + 1, c :: cs =>
    if isDig c then
      (c :: (takeDigits w cs).1, (takeDigits w cs).2)
    else ([], c :: cs)

/-- Bounded numeric field without the whitespace trim: at least one
and at most w digits, greedily. -/
def numFieldRaw (w : Nat) (cs : List Char) : Option (Nat × List Char) :=
  if (takeDigits w cs).1.isEmpty then none
  else some (valDigits (takeDigits w cs).1, (takeDigits w cs).2)

/-- Unsigned numeric field of the chrono parser: trim leading
whitespace, then read one to w digits greedily. -/
def numField (w : Nat) (cs : List Char) : Option (Nat × List Char) :=
  numFieldRaw w (cs.dropWhile (fun c => isWs c))

/-- Unbounded digit run, used after an explicit year sign, where the
chrono parser no longer bounds the width. -/
def digitsAll (cs : List Char) : Option (Nat × List Char) :=
  if (cs.takeWhile (fun c => isDig c)).isEmpty then none
  else some (valDigits (cs.takeWhile (fun c => isDig c)),
             cs.dropWhile (fun c => isDig c))

/-- The year field of the chrono parser: trim leading whitespace; an
explicit minus or plus sign is followed by an unbounded digit run,
otherwise one to four digits are read greedily. -/
def yearField (cs : List Char) : Option (Int × List Char) :=
  match cs.dropWhile (fun c => isWs c) with
  | [] => none
  | c :: cs2 =>
    if c = '-' then (digitsAll cs2).map (fun vr => (-(vr.1 : Int), vr.2))
    else if c = '+' then
      (digitsAll cs2).map (fun vr => ((vr.1 : Int), vr.2))
    else (numFieldRaw 4 (c :: cs2)).map (fun vr => ((vr.1 : Int), vr.2))

/-- Consume one expected literal character; literals in the chrono
format are matched exactly, with no whitespace trim. -/
def expectCh (c : Char) : List Char → Option (List Char)
  | [] => none
  | x :: rest => if x = c then some rest else none

/-- Parse of the stem of the filename with the chrono semantics of the
format string of the source: a signed year field, then the literal
separators alternating with two-digit-maximum numeric fields, each
numeric field trimming leading whitespace and accepting one to its
maximum width of digits, the whole input consumed, followed by the
calendar validation. -/
def parseStem (cs : List Char) : Option Date :=
  (yearField cs).bind fun yc =>
  (expectCh '-' yc.2).bind fun cs2 =>
  (numField 2 cs2).bind fun moc =>
  (expectCh '-' moc.2).bind fun cs4 =>
  (numField 2 cs4).bind fun dyc =>
  (expectCh '_' dyc.2).bind fun cs6 =>
  (numField 2 cs6).bind fun hhc =>
  (expectCh '-' hhc.2).bind fun cs8 =>
  (numField 2 cs8).bind fun mic =>
  (expectCh '-' mic.2).bind fun cs10 =>
  (numField 2 cs10).bind fun ssc =>
  match ssc.2 with
  | [] =>
    let d : Date := ⟨yc.1, moc.1, dyc.1, hhc.1, mic.1, ssc.1⟩
    if validDT d then some d else none
  | _ :: _ => none

/-- The characters of the literal suffix that strip_suffix removes. -/
def mp4Suffix : List Char := ['.', 'm', 'p', '4']

/-- Model of str strip_suffix with the literal suffix dot m p 4:
returns the stem exactly when the character list ends in that suffix. -/
def dropMp4 (cs : List Char) : Option (List Char) :=
  match cs.reverse with
  | '4' :: 'p' :: 'm' :: '.' :: rest => some rest.reverse
  | _ => none

/-- Model of extract_date_from_filename from the source: strip the
literal suffix, then parse the stem with the fixed pattern; any
failure is the format error of the source. -/
def extract_date_from_filename (filename : String) : Option Date :=
  match dropMp4 filename.data with
  | none => none
  | some stem => parseStem stem

/-- Canonical character rendering of the stem of a timestamp with a
year in 0 to 9999: four-digit year, two-digit month, day, hour,
minute, second, with the literal separators of the pattern — the
exact zero-padded form of the pattern as the spec words it. -/
def renderStem (d : Date) : List Char :=
  render 4 d.year.toNat ++ '-' ::
  (render 2 d.month ++ '-' ::
  (render 2 d.day ++ '_' ::
  (render 2 d.hour ++ '-' ::
  (render 2 d.minute ++ '-' :: render 2 d.second))))

/-- Shape of one unsigned two-digit-maximum numeric field as the
chrono parser accepts it: optional leading whitespace, then one or
two digits whose value is v. -/
def field2 (v : Nat) (seg : List Char) : Prop :=
  ∃ ws ds, seg = ws ++ ds ∧ (∀ c ∈ ws, isWs c = true) ∧ ds ≠ [] ∧
    ds.length ≤ 2 ∧ (∀ c ∈ ds, isDig c = true) ∧ valDigits ds = v

/-- Shape of the year field as the chrono parser accepts it: optional
leading whitespace, then either a minus sign with an unbounded digit
run whose negated value is y, a plus sign with an unbounded digit run
whose value is y, or one to four digits whose value is y. -/
def yearSeg (y : Int) (seg : List Char) : Prop :=
  ∃ ws body, seg = ws ++ body ∧ (∀ c ∈ ws, isWs c = true) ∧
    ((∃ ds, body = '-' :: ds ∧ ds ≠ [] ∧ (∀ c ∈ ds, isDig c = true) ∧
        y = -(valDigits ds : Int)) ∨
     (∃ ds, body = '+' :: ds ∧ ds ≠ [] ∧ (∀ c ∈ ds, isDig c = true) ∧
        y = (valDigits ds : Int)) ∨
     (∃ ds, body = ds ∧ ds ≠ [] ∧ ds.length ≤ 4 ∧
        (∀ c ∈ ds, isDig c = true) ∧ y = (valDigits ds : Int)))

/-- Full English month name, the %B format specifier of the source. -/
def monthName (m : Nat) : String :=
  if m = 1 then "January" else if m = 2 then "February"
  else if m = 3 then "March" else if m = 4 then "April"
  else if m = 5 then "May" else if m = 6 then "June"
  else if m = 7 then "July" else if m = 8 then "August"
  else if m = 9 then "September" else if m = 10 then "October"
  else if m = 11 then "November" else "December"

/-- Year string of the %Y format specifier: years 0 to 9999 are
written zero-padded to four digits; other years are written with an
explicit sign and their absolute value padded to four digits, as
chrono formats them. -/
def fmtY (d : Date) : String :=
  if 0 ≤ d.year ∧ d.year ≤ 9999 then String.mk (render 4 d.year.toNat)
  else
    let n := d.year.natAbs
    let digits := if n ≤ 9999 then render 4 n else (Nat.repr n).data
    if d.year < 0 then String.mk ('-' :: digits)
    else String.mk ('+' :: digits)

/-- Two-digit zero-padded month string, the %m format specifier. -/
def fmtM (d : Date) : String := String.mk (render 2 d.month)

/-- Long date form Month Day Year with zero-padded day, the
format specifier sequence %B %d %Y of the source. -/
def fmtLong (d : Date) : String :=
  monthName d.month ++ " " ++ String.mk (render 2 d.day) ++ " " ++ fmtY d

/-- Long date form with the day of month not zero-padded, the
format specifier sequence %B %-d %Y of the source. -/
def fmtLongNP (d : Date) : String :=
  monthName d.month ++ " " ++ Nat.repr d.day ++ " " ++ fmtY d

/-- ISO date string, the %Y-%m-%d format of the aired field. -/
def fmtISO (d : Date) : String :=
  fmtY d ++ "-" ++ fmtM d ++ "-" ++ String.mk (render 2 d.day)

/-- Four-digit month-day episode code, the %m%d format of the source. -/
def fmtMMDD (d : Date) : String := fmtM d ++ String.mk (render 2 d.day)

/-- Path join with a slash, the model of PathBuf join. -/
def joinPath (a b : String) : String := a ++ "/" ++ b

/-- Month directory for a date under the output root:
output_path/YYYY/MM-MonthName, as built in process_file. -/
def monthDir (outRoot : String) (d : Date) : String :=
  joinPath outRoot (fmtY d ++ "/" ++ (fmtM d ++ "-" ++ monthName d.month))

/-- Base name of the primary category output for a date. -/
def divineBase (d : Date) : String :=
  "Divine Worship Service - RTSDA | " ++ fmtLong d

/-- Display title of the primary category output for a date. -/
def divineTitle (d : Date) : String :=
  "Divine Worship Service - RTSDA | " ++ fmtLongNP d

/-- Base name of the secondary category output for a date. -/
def afternoonBase (d : Date) : String :=
  "Afternoon Program - RTSDA | " ++ fmtLong d

/-- Display title of the secondary category output for a date. -/
def afternoonTitle (d : Date) : String :=
  "Afternoon Program - RTSDA | " ++ fmtLongNP d

/-- Full path of the plain primary category file for a date, the
divine_worship_file of the source. -/
def divineFile (outRoot : String) (d : Date) : String :=
  joinPath (monthDir outRoot d) (divineBase d ++ ".mp4")

/-- Full path of the plain secondary category file for a date, the
afternoon_program_file of the source. -/
def afternoonFile (outRoot : String) (d : Date) : String :=
  joinPath (monthDir outRoot d) (afternoonBase d ++ ".mp4")

/-- Full path of the secondary category file with disambiguation
suffix n, the test_file probed by the while loop of the source. -/
def afternoonSufFile (outRoot : String) (d : Date) (n : Nat) : String :=
  joinPath (monthDir outRoot d)
    (afternoonBase d ++ " (" ++ Nat.repr n ++ ").mp4")

/-- The while loop probing disambiguation suffixes: starting at
candidate n, return the first suffix whose file does not exist.  The
Rust loop has no bound, so the model carries explicit fuel; the fuel
runs out only when every probed candidate exists. -/
def probeSuffix (fs : String → Bool) (outRoot : String) (d : Date) :
    Nat → Nat → Option Nat
  | 0, _ => none
  | fuel + 1, n =>
    if fs (afternoonSufFile outRoot d n) then
      probeSuffix fs outRoot d fuel (n + 1)
    else some n

/-- The naming decision of process_file: base filename, sidecar title
and category tag, chosen against the existing files fs of the output
tree.  Mirrors the if / else if / else chain of the source. -/
def resolveName (fs : String → Bool) (outRoot : String) (d : Date)
    (fuel : Nat) : Option (String × String × String) :=
  if fs (divineFile outRoot d) = false then
    some (divineBase d, divineTitle d, "Divine Worship Service")
  else if fs (afternoonFile outRoot d) = false then
    some (afternoonBase d, afternoonTitle d, "Afternoon Program")
  else
    match probeSuffix fs outRoot d fuel 1 with
    | none => none
    | some n =>
      some (afternoonBase d ++ " (" ++ Nat.repr n ++ ")",
            afternoonTitle d ++ " (" ++ Nat.repr n ++ ")",
            "Afternoon Program")

/-- Fields of the sidecar document written by process_file, in the
order of the nfo_content template of the source. -/
structure NfoFields where
  title : String
  showtitle : String
  season : String
  episode : String
  aired : String
  displayseason : String
  displayepisode : String
  tag : String
deriving DecidableEq

/-- Sidecar fields derived from the chosen title, tag and date,
exactly the values interpolated into the template of the source. -/
def buildNfo (title tag : String) (d : Date) : NfoFields :=
  { title := title
    showtitle := "LiveStreams"
    season := fmtY d
    episode := fmtMMDD d
    aired := fmtISO d
    displayseason := fmtY d
    displayepisode := fmtMMDD d
    tag := tag }

/-- Reified filesystem side effects of the pipeline.  The constructors
cover every operation the pipeline can issue plus the destructive
operations remove and rename, which exist in the effect vocabulary so
that their absence from every trace is a statement, not a tautology of
the trace type. -/
inductive Effect where
  | statPoll (p : String)
  | createDirAll (p : String)
  | transcode (src dst : String) (overwrite : Bool)
  | writeSidecar (p : String) (fields : NfoFields)
  | removeFile (p : String)
  | renameFile (src dst : String)
deriving DecidableEq

/-- The path an effect writes or creates, if any. -/
def writesTo : Effect → Option String
  | .statPoll _ => none
  | .createDirAll p => some p
  | .transcode _ dst _ => some dst
  | .writeSidecar p _ => some p
  | .removeFile _ => none
  | .renameFile _ dst => some dst

/-- Whether an effect removes or renames away a path. -/
def removesPath (e : Effect) (p : String) : Bool :=
  match e with
  | .removeFile q => q == p
  | .renameFile q _ => q == p
  | _ => false

/-- Error taxonomy of the per-file pipeline, one constructor per
early return of process_file in the source. -/
inductive PErr where
  | notMp4
  | stabilityFailed
  | formatError
  | mkdirFailed
  | probeDiverged
  | transcodeFailed
  | sidecarFailed
deriving DecidableEq

/-- Environment of oracles for the effectful collaborators of the
pipeline: the output-tree existence predicate, the canonicalization
of the event loop, and the success of the stability wait, directory
creation, the external transcoder and the sidecar write. -/
structure Env where
  fsOut : String → Bool
  canonical : String → Option String
  stabOk : String → Bool
  mkdirOk : Bool
  ffmpegOk : String → Bool
  nfoOk : Bool

/-- Last path component, the model of Path file_name as used on the
paths handled by the service. -/
def fileName (p : String) : String :=
  String.mk (p.data.reverse.takeWhile (fun c => c ≠ '/')).reverse

/-- Model of Path extension: the part of the file name after its last
dot, where a dot leading the file name does not count as a separator.
-/
def extAux : List Char → Option (List Char)
  | [] => none
  | c :: rest =>
    match extAux rest with
    | some e => some e
    | none => if c = '.' then some rest else none

/-- Extension of a path string, as Some of the extension text. -/
def extension (p : String) : Option String :=
  match (fileName p).data with
  | [] => none
  | _ :: rest =>
    match extAux rest with
    | some e => some (String.mk e)
    | none => none

/-- The per-file pipeline process_file of the source, as a function
from the environment, output root, probe fuel and source path to the
result and the trace of issued effects, in source order: extension
gate, stability wait, date extraction, directory creation, naming,
transcode invocation with the never-overwrite flag, sidecar write. -/
def process_file (env : Env) (outRoot : String) (fuel : Nat)
    (src : String) : Except PErr Unit × List Effect :=
  if extension src ≠ some "mp4" then (.error .notMp4, [])
  else if env.stabOk src = false then
    (.error .stabilityFailed, [.statPoll src])
  else
    match extract_date_from_filename (fileName src) with
    | none => (.error .formatError, [.statPoll src])
    | some d =>
      if env.mkdirOk = false then
        (.error .mkdirFailed,
         [.statPoll src, .createDirAll (monthDir outRoot d)])
      else
        match resolveName env.fsOut outRoot d fuel with
        | none =>
          (.error .probeDiverged,
           [.statPoll src, .createDirAll (monthDir outRoot d)])
        | some (base, title, tag) =>
          if env.ffmpegOk src = false then
            (.error .transcodeFailed,
             [.statPoll src, .createDirAll (monthDir outRoot d),
              .transcode src
                (joinPath (monthDir outRoot d) (base ++ ".mp4")) false])
          else if env.nfoOk = false then
            (.error .sidecarFailed,
             [.statPoll src, .createDirAll (monthDir outRoot d),
              .transcode src
                (joinPath (monthDir outRoot d) (base ++ ".mp4")) false,
              .writeSidecar (joinPath (monthDir outRoot d) (base ++ ".nfo"))
                (buildNfo title tag d)])
          else
            (.ok (),
             [.statPoll src, .createDirAll (monthDir outRoot d),
              .transcode src
                (joinPath (monthDir outRoot d) (base ++ ".mp4")) false,
              .writeSidecar (joinPath (monthDir outRoot d) (base ++ ".nfo"))
                (buildNfo title tag d)])

/-- Whether a pipeline run reaches the final Ok of process_file. -/
def processOk (env : Env) (outRoot : String) (fuel : Nat)
    (src : String) : Bool :=
  (process_file env outRoot fuel src).1.toBool

/-- Insert into the dedup ledger followed by the overflow check of the
event loop: insert, then clear the whole ledger when its size exceeds
1000. -/
def markLedger (ledger : List String) (c : String) : List String :=
  let l := if c ∈ ledger then ledger else ledger ++ [c]
  if 1000 < l.length then [] else l

/-- Successive marks of a list of paths, newest last. -/
def markAll (ledger : List String) : List String → List String
  | [] => ledger
  | p :: ps => markAll (markLedger ledger p) ps

/-- Ledger membership, the contains check of the event loop. -/
def seen (ledger : List String) (p : String) : Bool := p ∈ ledger

/-- Outcome of handling one event path in the event loop. -/
inductive HandleResult where
  | noCanon
  | alreadySeen
  | ranOk
  | ranErr (e : PErr)
deriving DecidableEq

/-- Handling of one path of a create or modify event in the main event
loop: canonicalize (silently skipping on failure), check the dedup
ledger, run process_file on the original path, and on success mark the
canonical path with the overflow clear.  Returns the new ledger, the
outcome, and the effects issued. -/
def handlePath (env : Env) (outRoot : String) (fuel : Nat)
    (ledger : List String) (p : String) :
    List String × HandleResult × List Effect :=
  match env.canonical p with
  | none => (ledger, .noCanon, [])
  | some c =>
    if seen ledger c then (ledger, .alreadySeen, [])
    else
      match process_file env outRoot fuel p with
      | (.error e, tr) => (ledger, .ranErr e, tr)
      | (.ok _, tr) => (markLedger ledger c, .ranOk, tr)

/-- Outcome of the startup scan for one directory entry. -/
inductive StartOutcome where
  | notMp4
  | badName
  | outputsExist
  | ran (ok : Bool)
deriving DecidableEq

/-- Handling of one directory entry by the startup scan of main:
extension gate, date extraction, skip when either dated output already
exists, otherwise run process_file directly.  The dedup ledger is
passed through untouched, as in the source, which neither consults nor
updates processed_files during the scan. -/
def startupHandle (env : Env) (outRoot : String) (fuel : Nat)
    (ledger : List String) (p : String) :
    List String × StartOutcome × List Effect :=
  if extension p ≠ some "mp4" then (ledger, .notMp4, [])
  else
    match extract_date_from_filename (fileName p) with
    | none => (ledger, .badName, [])
    | some d =>
      if env.fsOut (divineFile outRoot d) = false ∧
         env.fsOut (afternoonFile outRoot d) = false then
        match process_file env outRoot fuel p with
        | (.ok _, tr) => (ledger, .ran true, tr)
        | (.error _, tr) => (ledger, .ran false, tr)
      else (ledger, .outputsExist, [])

/-- Polling state of wait_for_file_ready: the recorded size, the
recorded modification time and the consecutive-stability counter. -/
structure WaitState where
  last_size : Nat
  last_modified : Nat
  stable_count : Nat
deriving DecidableEq

/-- The stability threshold of the source: 15 checks of 2 seconds. -/
def required_stable_checks : Nat := 15

/-- One polling iteration of wait_for_file_ready on an observed size
and modification time: the exact branch structure of the source.  A
zero size skips the whole update block; a nonzero size either
increments the counter when both recorded values match, or resets it,
and in both cases records the observation.  The Bool is the early
success return taken when the incremented counter reaches the
threshold. -/
def wait_step (st : WaitState) (sz mt : Nat) : WaitState × Bool :=
  if 0 < sz then
    if sz = st.last_size then
      if mt = st.last_modified then
        let c := st.stable_count + 1
        (⟨sz, mt, c⟩, required_stable_checks ≤ c)
      else (⟨sz, mt, 0⟩, false)
    else (⟨sz, mt, 0⟩, false)
  else (st, false)

/-- The polling loop over a finite list of (size, mtime) observations:
the index at which wait_for_file_ready returns success, or none if the
observations are exhausted first. -/
def wait_run (st : WaitState) : List (Nat × Nat) → Option Nat
  | [] => none
  | (sz, mt) :: rest =>
    if (wait_step st sz mt).2 then some 0
    else (wait_run (wait_step st sz mt).1 rest).map (· + 1)

/-- Initial polling state of the source: last_size zero, stable_count
zero, last_modified an arbitrary starting time m0. -/
def waitInit (m0 : Nat) : WaitState := ⟨0, m0, 0⟩

/-- Modelled from the spec: the counter dynamics as the claim states
them, resetting the counter on every change including a zero size.
This definition exists only to be compared with wait_step, which is
the embedding of the source. -/
def wait_step_claim (st : WaitState) (sz mt : Nat) : WaitState × Bool :=
  if 0 < sz ∧ sz = st.last_size ∧ mt = st.last_modified then
    let c := st.stable_count + 1
    (⟨sz, mt, c⟩, required_stable_checks ≤ c)
  else (⟨sz, mt, 0⟩, false)

/-- The polling loop under the claim-side counter dynamics. -/
def wait_run_claim (st : WaitState) : List (Nat × Nat) → Option Nat
  | [] => none
  | (sz, mt) :: rest =>
    if (wait_step_claim st sz mt).2 then some 0
    else (wait_run_claim (wait_step_claim st sz mt).1 rest).map (· + 1)

/-- The capture timestamp of the end-to-end scenario of the spec. -/
def dec27 : Date := ⟨2024, 12, 27, 18, 42, 36⟩

/-- The source filename of the end-to-end scenario of the spec. -/
def srcName : String := "2024-12-27_18-42-36.mp4"

/-- Environment in which every collaborator succeeds, canonicalization
is the identity and the output tree is empty. -/
def envAll : Env :=
  { fsOut := fun _ => false
    canonical := fun p => some p
    stabOk := fun _ => true
    mkdirOk := true
    ffmpegOk := fun _ => true
    nfoOk := true }

/-- Environment in which canonicalization fails for every path. -/
def envNoCanon : Env := { envAll with canonical := fun _ => none }

/-- Environment in which the external transcode step fails. -/
def envFfmpegFail : Env := { envAll with ffmpegOk := fun _ => false }

/-- A ledger of n distinct short paths, for exercising the overflow
clear of the dedup ledger. -/
def ledgerOf (n : Nat) : List String :=
  (List.range n).map (fun k => String.mk ['f', Char.ofNat k])

/-- Sixteen identical nonzero observations: the shortest run on which
the stability wait succeeds. -/
def obs16 : List (Nat × Nat) := List.replicate 16 (5, 7)

/-- A growing-then-stalled observation run with a single zero-size
read in the middle of the stable tail: one initial observation, seven
stable checks, one zero-size read, then eight further stable checks. -/
def obsZ : List (Nat × Nat) :=
  (5, 7) :: List.replicate 7 (5, 7) ++ [(0, 0)] ++ List.replicate 8 (5, 7)

/-- Output tree of the collision scenario: both plain category files
for the scenario date already exist. -/
def fsBoth : String → Bool := fun s =>
  s == divineFile "out" dec27 || s == afternoonFile "out" dec27

/-- Output tree in which both plain files and the first suffixed file
for the scenario date already exist. -/
def fsThree : String → Bool := fun s =>
  fsBoth s || s == afternoonSufFile "out" dec27 1

/-! Helper lemmas. -/

theorem char_toNat_ofNat (n : Nat) (h : n < 55296) :
    (Char.ofNat n).toNat = n := by
  simp [Char.ofNat, Nat.isValidChar, h, Char.toNat, Char.ofNatAux,
    UInt32.toNat, BitVec.toNat_ofNatLt]

theorem dig_not_ws {c : Char} (h : isDig c = true) : isWs c = false := by
  simp only [isDig, Bool.and_eq_true, decide_eq_true_eq] at h
  simp only [isWs, Bool.or_eq_false_iff, Bool.and_eq_false_iff,
    decide_eq_false_iff_not, beq_eq_false_iff_ne, ne_eq]
  omega

theorem dig_ne_sign {c : Char} (h : isDig c = true) :
    c ≠ '-' ∧ c ≠ '+' := by
  constructor <;> rintro rfl <;> exact absurd h (by decide)

theorem takeDigits_sound :
    ∀ (w : Nat) (cs ds r : List Char), takeDigits w cs = (ds, r) →
      (∀ c ∈ ds, isDig c = true) ∧ ds.length ≤ w ∧ cs = ds ++ r ∧
      (ds.length = w ∨ headDigit r = false) := by
  intro w
  induction w with
  | zero =>
    intro cs ds r h
    simp [takeDigits] at h
    obtain ⟨rfl, rfl⟩ := h
    simp
  | succ w ih =>
    intro cs ds r h
    cases cs with
    | nil =>
      simp [takeDigits] at h
      obtain ⟨rfl, rfl⟩ := h
      simp [headDigit]
    | cons c cs2 =>
      unfold takeDigits at h
      by_cases hc : isDig c
      · rw [if_pos hc] at h
        rcases htd : takeDigits w cs2 with ⟨ds2, r2⟩
        rw [htd] at h
        simp only [Prod.mk.injEq] at h
        obtain ⟨hds, hr⟩ := h
        obtain ⟨ha, hb, hc2, hd⟩ := ih cs2 ds2 r2 htd
        subst hds
        subst hr
        refine ⟨?_, by simp; omega, by simp [hc2], ?_⟩
        · intro x hx
          simp at hx
          rcases hx with rfl | hx
          · exact hc
          · exact ha x hx
        · rcases hd with hd | hd
          · left
            simp [hd]
          · right
            exact hd
      · rw [if_neg hc] at h
        simp at h
        obtain ⟨rfl, rfl⟩ := h
        have hcf : isDig c = false := by simpa using hc
        exact ⟨by simp, by simp, by simp, Or.inr (by simp [headDigit, hcf])⟩

theorem takeDigits_complete :
    ∀ (ds : List Char) (w : Nat) (r : List Char),
      (∀ c ∈ ds, isDig c = true) → ds.length ≤ w →
      (ds.length = w ∨ headDigit r = false) →
      takeDigits w (ds ++ r) = (ds, r) := by
  intro ds
  induction ds with
  | nil =>
    intro w r _ _ hor
    rcases hor with hw | hr
    · simp at hw
      subst hw
      simp [takeDigits]
    · cases w with
      | zero => simp [takeDigits]
      | succ w =>
        cases r with
        | nil => simp [takeDigits]
        | cons c r2 =>
          have hcf : isDig c = false := by simpa [headDigit] using hr
          simp [takeDigits, hcf]
  | cons c ds2 ih =>
    intro w r hdig hlen hor
    cases w with
    | zero => simp at hlen
    | succ w =>
      have hc : isDig c = true := hdig c (by simp)
      have hor2 : ds2.length = w ∨ headDigit r = false := by
        rcases hor with h | h
        · left; simp at h; omega
        · right; exact h
      have ih2 := ih w r (fun x hx => hdig x (by simp [hx]))
        (by simp at hlen; omega) hor2
      simp [takeDigits, hc, ih2]

theorem dropWhile_ws_append (ws rest : List Char)
    (hws : ∀ c ∈ ws, isWs c = true) (hr : headWs rest = false) :
    (ws ++ rest).dropWhile (fun c => isWs c) = rest := by
  induction ws with
  | nil =>
    simp only [List.nil_append]
    cases rest with
    | nil => simp
    | cons c r2 =>
      have hcf : isWs c = false := by simpa [headWs] using hr
      simp [List.dropWhile, hcf]
  | cons w ws2 ih =>
    have hw : isWs w = true := hws w (by simp)
    simp only [List.cons_append, List.dropWhile, hw]
    exact ih (fun c hc => hws c (by simp [hc]))

theorem span_digits (ds r : List Char) (hd : ∀ c ∈ ds, isDig c = true)
    (hr : headDigit r = false) :
    (ds ++ r).takeWhile (fun c => isDig c) = ds ∧
    (ds ++ r).dropWhile (fun c => isDig c) = r := by
  induction ds with
  | nil =>
    simp only [List.nil_append]
    cases r with
    | nil => simp
    | cons c r2 =>
      have hcf : isDig c = false := by simpa [headDigit] using hr
      simp [List.takeWhile, List.dropWhile, hcf]
  | cons c ds2 ih =>
    have hc : isDig c = true := hd c (by simp)
    obtain ⟨h1, h2⟩ := ih (fun x hx => hd x (by simp [hx]))
    constructor
    · simp [List.takeWhile, hc, h1]
    · simp [List.dropWhile, hc, h2]

theorem expectCh_sound {c : Char} {cs r : List Char}
    (h : expectCh c cs = some r) : cs = c :: r := by
  cases cs with
  | nil => simp [expectCh] at h
  | cons x rest =>
    simp only [expectCh] at h
    split at h
    · rename_i hx
      simp at h
      rw [hx, h]
    · simp at h

theorem expectCh_self (c : Char) (r : List Char) :
    expectCh c (c :: r) = some r := by
  simp [expectCh]

theorem dropMp4_eq_some (cs stem : List Char) :
    dropMp4 cs = some stem ↔ cs = stem ++ mp4Suffix := by
  constructor
  · intro h
    unfold dropMp4 at h
    split at h
    case _ rest heq =>
      have h2 : cs = ('4' :: 'p' :: 'm' :: '.' :: rest).reverse := by
        rw [← heq, List.reverse_reverse]
      simp at h
      rw [h2, ← h]
      simp [mp4Suffix]
    case _ => simp at h
  · intro h
    subst h
    unfold dropMp4
    rw [List.reverse_append]
    simp [mp4Suffix, List.reverse_reverse]

theorem isWs_hyphen : isWs '-' = false := by decide

theorem isWs_plus : isWs '+' = false := by decide

theorem isDig_hyphen : isDig '-' = false := by decide

theorem isDig_underscore : isDig '_' = false := by decide

theorem numFieldRaw_sound {w : Nat} {cs : List Char} {v : Nat}
    {r : List Char} (h : numFieldRaw w cs = some (v, r)) :
    ∃ ds, cs = ds ++ r ∧ ds ≠ [] ∧ ds.length ≤ w ∧
      (∀ c ∈ ds, isDig c = true) ∧ valDigits ds = v ∧
      (ds.length = w ∨ headDigit r = false) := by
  unfold numFieldRaw at h
  rcases htd : takeDigits w cs with ⟨ds, r2⟩
  rw [htd] at h
  split at h
  · simp at h
  · rename_i hne
    simp only [Option.some.injEq, Prod.mk.injEq] at h
    obtain ⟨hv, hr⟩ := h
    obtain ⟨ha, hb, hcs, hd⟩ := takeDigits_sound w cs ds r2 htd
    subst hr
    refine ⟨ds, hcs, ?_, hb, ha, hv, hd⟩
    simpa [List.isEmpty_iff] using hne

theorem numField2_sound {cs : List Char} {v : Nat} {r : List Char}
    (h : numField 2 cs = some (v, r)) :
    ∃ s, cs = s ++ r ∧ field2 v s := by
  unfold numField at h
  obtain ⟨ds, hds, hne, hlen, hdig, hval, _⟩ := numFieldRaw_sound h
  refine ⟨cs.takeWhile (fun c => isWs c) ++ ds, ?_, ?_⟩
  · rw [List.append_assoc, ← hds, List.takeWhile_append_dropWhile]
  · exact ⟨_, ds, rfl, fun x hx => List.mem_takeWhile_imp hx, hne,
      hlen, hdig, hval⟩

theorem numField_complete (w : Nat) (ws ds r : List Char)
    (hws : ∀ c ∈ ws, isWs c = true) (hne : ds ≠ [])
    (hlen : ds.length ≤ w) (hdig : ∀ c ∈ ds, isDig c = true)
    (hgr : ds.length = w ∨ headDigit r = false) :
    numField w (ws ++ (ds ++ r)) = some (valDigits ds, r) := by
  unfold numField
  have hhead : headWs (ds ++ r) = false := by
    cases ds with
    | nil => exact absurd rfl hne
    | cons c ds2 =>
      have hnw : isWs c = false := dig_not_ws (hdig c (by simp))
      simp [headWs, hnw]
  rw [dropWhile_ws_append ws (ds ++ r) hws hhead]
  unfold numFieldRaw
  rw [takeDigits_complete ds w r hdig hlen hgr]
  simp [List.isEmpty_iff, hne]

theorem numField2_complete {v : Nat} (s r : List Char) (hs : field2 v s)
    (hr : headDigit r = false) : numField 2 (s ++ r) = some (v, r) := by
  obtain ⟨ws, ds, rfl, hws, hne, hlen, hdig, rfl⟩ := hs
  rw [List.append_assoc]
  exact numField_complete 2 ws ds r hws hne hlen hdig (Or.inr hr)

theorem digitsAll_sound {cs : List Char} {v : Nat} {r : List Char}
    (h : digitsAll cs = some (v, r)) :
    ∃ ds, cs = ds ++ r ∧ ds ≠ [] ∧ (∀ c ∈ ds, isDig c = true) ∧
      valDigits ds = v := by
  unfold digitsAll at h
  split at h
  · simp at h
  · rename_i hne
    simp only [Option.some.injEq, Prod.mk.injEq] at h
    obtain ⟨hv, hr⟩ := h
    refine ⟨cs.takeWhile (fun c => isDig c), ?_, ?_, ?_, hv⟩
    · rw [← hr, List.takeWhile_append_dropWhile]
    · simpa [List.isEmpty_iff] using hne
    · exact fun x hx => List.mem_takeWhile_imp hx

theorem digitsAll_complete (ds r : List Char) (hne : ds ≠ [])
    (hdig : ∀ c ∈ ds, isDig c = true) (hr : headDigit r = false) :
    digitsAll (ds ++ r) = some (valDigits ds, r) := by
  obtain ⟨h1, h2⟩ := span_digits ds r hdig hr
  unfold digitsAll
  rw [h1, h2]
  simp [List.isEmpty_iff, hne]

theorem yearField_sound {cs : List Char} {y : Int} {r : List Char}
    (h : yearField cs = some (y, r)) :
    ∃ s1, cs = s1 ++ r ∧ yearSeg y s1 := by
  unfold yearField at h
  rcases hdw : cs.dropWhile (fun c => isWs c) with _ | ⟨c, cs2⟩
  · rw [hdw] at h
    simp at h
  · rw [hdw] at h
    simp only [] at h
    have hsplit : cs = cs.takeWhile (fun c => isWs c) ++ (c :: cs2) := by
      conv_lhs => rw [← List.takeWhile_append_dropWhile
        (p := fun c => isWs c) (l := cs)]
      rw [hdw]
    have hwsall : ∀ x ∈ cs.takeWhile (fun c => isWs c), isWs x = true :=
      fun x hx => List.mem_takeWhile_imp hx
    by_cases hm : c = '-'
    · rw [if_pos hm] at h
      rw [Option.map_eq_some'] at h
      obtain ⟨⟨v, r2⟩, hda, hmap⟩ := h
      simp only [Prod.mk.injEq] at hmap
      obtain ⟨hy, hr⟩ := hmap
      obtain ⟨ds, hcs2, hne, hdig, hval⟩ := digitsAll_sound hda
      subst hr
      refine ⟨cs.takeWhile (fun c => isWs c) ++ '-' :: ds, ?_, ?_⟩
      · conv_lhs => rw [hsplit]
        rw [hm, hcs2]
        simp
      · exact ⟨_, '-' :: ds, rfl, hwsall,
          Or.inl ⟨ds, rfl, hne, hdig, by rw [← hy, hval]⟩⟩
    · rw [if_neg hm] at h
      by_cases hp : c = '+'
      · rw [if_pos hp] at h
        rw [Option.map_eq_some'] at h
        obtain ⟨⟨v, r2⟩, hda, hmap⟩ := h
        simp only [Prod.mk.injEq] at hmap
        obtain ⟨hy, hr⟩ := hmap
        obtain ⟨ds, hcs2, hne, hdig, hval⟩ := digitsAll_sound hda
        subst hr
        refine ⟨cs.takeWhile (fun c => isWs c) ++ '+' :: ds, ?_, ?_⟩
        · conv_lhs => rw [hsplit]
          rw [hp, hcs2]
          simp
        · exact ⟨_, '+' :: ds, rfl, hwsall,
            Or.inr (Or.inl ⟨ds, rfl, hne, hdig, by rw [← hy, hval]⟩)⟩
      · rw [if_neg hp] at h
        rw [Option.map_eq_some'] at h
        obtain ⟨⟨v, r2⟩, hnf, hmap⟩ := h
        simp only [Prod.mk.injEq] at hmap
        obtain ⟨hy, hr⟩ := hmap
        obtain ⟨ds, hcs2, hne, hlen, hdig, hval, _⟩ := numFieldRaw_sound hnf
        subst hr
        refine ⟨cs.takeWhile (fun c => isWs c) ++ ds, ?_, ?_⟩
        · conv_lhs => rw [hsplit]
          rw [hcs2]
          simp
        · exact ⟨_, ds, rfl, hwsall,
            Or.inr (Or.inr ⟨ds, rfl, hne, hlen, hdig, by rw [← hy, hval]⟩)⟩

theorem yearField_complete (s1 r : List Char) (y : Int)
    (hseg : yearSeg y s1) (hr : headDigit r = false) :
    yearField (s1 ++ r) = some (y, r) := by
  obtain ⟨ws, body, rfl, hws, hcase⟩ := hseg
  unfold yearField
  rcases hcase with ⟨ds, rfl, hne, hdig, rfl⟩ | ⟨ds, rfl, hne, hdig, rfl⟩ |
    ⟨ds, rfl, hne, hlen, hdig, rfl⟩
  · have hdw : ((ws ++ '-' :: ds) ++ r).dropWhile (fun c => isWs c) =
        '-' :: (ds ++ r) := by
      rw [List.append_assoc, List.cons_append]
      exact dropWhile_ws_append ws ('-' :: (ds ++ r)) hws
        (by simp [headWs, isWs_hyphen])
    rw [hdw]
    simp only []
    rw [if_pos trivial, digitsAll_complete ds r hne hdig hr]
    rfl
  · have hdw : ((ws ++ '+' :: ds) ++ r).dropWhile (fun c => isWs c) =
        '+' :: (ds ++ r) := by
      rw [List.append_assoc, List.cons_append]
      exact dropWhile_ws_append ws ('+' :: (ds ++ r)) hws
        (by simp [headWs, isWs_plus])
    rw [hdw]
    simp only []
    rw [if_neg (by decide), if_pos trivial,
      digitsAll_complete ds r hne hdig hr]
    rfl
  · cases body with
    | nil => exact absurd rfl hne
    | cons c ds2 =>
      have hc : isDig c = true := hdig c (by simp)
      obtain ⟨hm, hp⟩ := dig_ne_sign hc
      have hdw : ((ws ++ c :: ds2) ++ r).dropWhile (fun c => isWs c) =
          c :: (ds2 ++ r) := by
        rw [List.append_assoc, List.cons_append]
        exact dropWhile_ws_append ws (c :: (ds2 ++ r)) hws
          (by simp [headWs, dig_not_ws hc])
      rw [hdw]
      simp only []
      rw [if_neg hm, if_neg hp]
      have htd := takeDigits_complete (c :: ds2) 4 r hdig hlen (Or.inr hr)
      unfold numFieldRaw
      rw [List.cons_append] at htd
      rw [htd]
      simp

theorem parseStem_flex (cs : List Char) (d : Date) :
    parseStem cs = some d ↔
      validDT d = true ∧ ∃ s1 s2 s3 s4 s5 s6 : List Char,
        cs = s1 ++ '-' :: (s2 ++ '-' :: (s3 ++ '_' ::
          (s4 ++ '-' :: (s5 ++ '-' :: s6)))) ∧
        yearSeg d.year s1 ∧ field2 d.month s2 ∧ field2 d.day s3 ∧
        field2 d.hour s4 ∧ field2 d.minute s5 ∧ field2 d.second s6 := by
  constructor
  · intro h
    simp only [parseStem, Option.bind_eq_some] at h
    obtain ⟨⟨y, cs1⟩, h1, h⟩ := h
    obtain ⟨cs2, h2, h⟩ := h
    obtain ⟨⟨mo, cs3⟩, h3, h⟩ := h
    obtain ⟨cs4, h4, h⟩ := h
    obtain ⟨⟨dy, cs5⟩, h5, h⟩ := h
    obtain ⟨cs6, h6, h⟩ := h
    obtain ⟨⟨hh, cs7⟩, h7, h⟩ := h
    obtain ⟨cs8, h8, h⟩ := h
    obtain ⟨⟨mi, cs9⟩, h9, h⟩ := h
    obtain ⟨cs10, h10, h⟩ := h
    obtain ⟨⟨ss, cs11⟩, h11, h⟩ := h
    cases cs11 with
    | cons a t => simp at h
    | nil =>
      simp only [] at h
      split at h
      · rename_i hvd
        simp only [Option.some.injEq] at h
        subst h
        refine ⟨hvd, ?_⟩
        obtain ⟨s1, e1, hy⟩ := yearField_sound h1
        have e2 : cs1 = '-' :: cs2 := expectCh_sound h2
        obtain ⟨s2, e3, h2f⟩ := numField2_sound h3
        have e4 : cs3 = '-' :: cs4 := expectCh_sound h4
        obtain ⟨s3, e5, h3f⟩ := numField2_sound h5
        have e6 : cs5 = '_' :: cs6 := expectCh_sound h6
        obtain ⟨s4, e7, h4f⟩ := numField2_sound h7
        have e8 : cs7 = '-' :: cs8 := expectCh_sound h8
        obtain ⟨s5, e9, h5f⟩ := numField2_sound h9
        have e10 : cs9 = '-' :: cs10 := expectCh_sound h10
        obtain ⟨s6, e11, h6f⟩ := numField2_sound h11
        refine ⟨s1, s2, s3, s4, s5, s6, ?_, hy, h2f, h3f, h4f, h5f, h6f⟩
        rw [e1, e2, e3, e4, e5, e6, e7, e8, e9, e10, e11]
        simp
      · simp at h
  · rintro ⟨hv, s1, s2, s3, s4, s5, s6, rfl, hy, h2, h3, h4, h5, h6⟩
    simp only [parseStem]
    rw [yearField_complete s1 _ d.year hy
      (by simp [headDigit, isDig_hyphen])]
    simp only [Option.some_bind]
    rw [expectCh_self]
    simp only [Option.some_bind]
    rw [numField2_complete s2 _ h2 (by simp [headDigit, isDig_hyphen])]
    simp only [Option.some_bind]
    rw [expectCh_self]
    simp only [Option.some_bind]
    rw [numField2_complete s3 _ h3
      (by simp [headDigit, isDig_underscore])]
    simp only [Option.some_bind]
    rw [expectCh_self]
    simp only [Option.some_bind]
    rw [numField2_complete s4 _ h4 (by simp [headDigit, isDig_hyphen])]
    simp only [Option.some_bind]
    rw [expectCh_self]
    simp only [Option.some_bind]
    rw [numField2_complete s5 _ h5 (by simp [headDigit, isDig_hyphen])]
    simp only [Option.some_bind]
    rw [expectCh_self]
    simp only [Option.some_bind]
    have h6c : numField 2 s6 = some (d.second, []) := by
      have := numField2_complete s6 [] h6 (by simp [headDigit])
      simpa using this
    rw [h6c]
    simp only [Option.some_bind]
    simp [hv]

theorem extract_suffix {f : String} {d : Date}
    (h : extract_date_from_filename f = some d) :
    ∃ stem, f.data = stem ++ mp4Suffix := by
  unfold extract_date_from_filename at h
  cases hdrop : dropMp4 f.data with
  | none => rw [hdrop] at h; simp at h
  | some stem => exact ⟨stem, (dropMp4_eq_some f.data stem).mp hdrop⟩

theorem wait_step_zero (st : WaitState) (sz mt : Nat) (h : sz = 0) :
    wait_step st sz mt = (st, false) := by
  unfold wait_step
  rw [if_neg (by omega)]

theorem wait_step_incr (st : WaitState) (sz mt : Nat) (h0 : 0 < sz)
    (h1 : sz = st.last_size) (h2 : mt = st.last_modified) :
    wait_step st sz mt = (⟨sz, mt, st.stable_count + 1⟩,
      decide (required_stable_checks ≤ st.stable_count + 1)) := by
  unfold wait_step
  rw [if_pos h0, if_pos h1, if_pos h2]

theorem wait_step_reset (st : WaitState) (sz mt : Nat) (h0 : 0 < sz)
    (h : sz ≠ st.last_size ∨ mt ≠ st.last_modified) :
    wait_step st sz mt = (⟨sz, mt, 0⟩, false) := by
  unfold wait_step
  rcases h with h | h
  · rw [if_pos h0, if_neg h]
  · by_cases hsz : sz = st.last_size
    · rw [if_pos h0, if_pos hsz, if_neg h]
    · rw [if_pos h0, if_neg hsz]

theorem wait_step_count_le (st : WaitState) (sz mt : Nat) :
    (wait_step st sz mt).1.stable_count ≤ st.stable_count + 1 := by
  unfold wait_step
  split_ifs <;> simp

theorem wait_step_fired {st : WaitState} {sz mt : Nat}
    (h : (wait_step st sz mt).2 = true) :
    required_stable_checks ≤ st.stable_count + 1 := by
  unfold wait_step at h
  split_ifs at h
  simp_all

theorem wait_run_fire_ge :
    ∀ (obs : List (Nat × Nat)) (st : WaitState) (j : Nat),
      wait_run st obs = some j →
      required_stable_checks ≤ st.stable_count + j + 1 := by
  intro obs
  induction obs with
  | nil => intro st j h; simp [wait_run] at h
  | cons o rest ih =>
    intro st j h
    obtain ⟨sz, mt⟩ := o
    unfold wait_run at h
    by_cases hf : (wait_step st sz mt).2
    · rw [if_pos hf] at h
      simp at h
      have := wait_step_fired hf
      omega
    · rw [if_neg hf] at h
      cases hr : wait_run (wait_step st sz mt).1 rest with
      | none => rw [hr] at h; simp at h
      | some j2 =>
        rw [hr] at h
        simp at h
        have hle := wait_step_count_le st sz mt
        have := ih _ j2 hr
        omega

theorem wait_run_init_ge :
    ∀ (obs : List (Nat × Nat)) (st : WaitState) (j : Nat),
      st.last_size = 0 → st.stable_count = 0 →
      wait_run st obs = some j → required_stable_checks ≤ j := by
  intro obs
  induction obs with
  | nil => intro st j _ _ h; simp [wait_run] at h
  | cons o rest ih =>
    intro st j hls hc h
    obtain ⟨sz, mt⟩ := o
    unfold wait_run at h
    by_cases hf : (wait_step st sz mt).2
    · have hj := wait_step_fired hf
      rw [hc] at hj
      norm_num [required_stable_checks] at hj
    · rw [if_neg hf] at h
      cases hr : wait_run (wait_step st sz mt).1 rest with
      | none => rw [hr] at h; simp at h
      | some j2 =>
        rw [hr] at h
        simp at h
        by_cases hsz : 0 < sz
        · have hne : sz ≠ st.last_size := by omega
          rw [wait_step_reset st sz mt hsz (Or.inl hne)] at hr
          have := wait_run_fire_ge rest _ j2 hr
          simp at this
          omega
        · have h0 : sz = 0 := by omega
          rw [wait_step_zero st sz mt h0] at hr
          have := ih st j2 hls hc hr
          omega

theorem markLedger_append {ledger : List String} {c : String}
    (hc : c ∉ ledger) (hlen : ledger.length < 1000) :
    markLedger ledger c = ledger ++ [c] := by
  unfold markLedger
  rw [if_neg hc, if_neg (by simp; omega)]

theorem markAll_app :
    ∀ (ps s : List String), s.length + ps.length ≤ 1000 →
      (∀ x ∈ ps, x ∉ s) → ps.Nodup → markAll s ps = s ++ ps := by
  intro ps
  induction ps with
  | nil => intro s _ _ _; simp [markAll]
  | cons p ps ih =>
    intro s hlen hnin hnd
    unfold markAll
    rw [markLedger_append (hnin p (by simp)) (by simp at hlen; omega)]
    rw [ih (s ++ [p]) (by simp at hlen ⊢; omega) ?_ (List.Nodup.of_cons hnd)]
    · simp
    · intro x hx
      simp only [List.mem_append, List.mem_singleton]
      push_neg
      refine ⟨hnin x (by simp [hx]), ?_⟩
      intro he
      exact (List.nodup_cons.mp hnd).1 (he ▸ hx)

theorem markAll_split :
    ∀ (l1 l2 s : List String),
      markAll s (l1 ++ l2) = markAll (markAll s l1) l2 := by
  intro l1
  induction l1 with
  | nil => intro l2 s; simp [markAll]
  | cons p l1 ih => intro l2 s; simp [markAll, ih]

theorem ledgerOf_nodup (n : Nat) (h : n ≤ 55296) : (ledgerOf n).Nodup := by
  refine List.Nodup.map_on ?_ (List.nodup_range n)
  intro x hx y hy hxy
  simp only [List.mem_range] at hx hy
  have h2 : ['f', Char.ofNat x] = ['f', Char.ofNat y] :=
    congrArg String.data hxy
  simp only [List.cons.injEq, and_true, true_and] at h2
  have h3 := congrArg Char.toNat h2
  rwa [char_toNat_ofNat x (by omega), char_toNat_ofNat y (by omega)] at h3

theorem toBool_ok {r : Except PErr Unit} (h : r.toBool = true) :
    r = .ok () := by
  cases r with
  | error e => simp [Except.toBool] at h
  | ok u => cases u; rfl

theorem toBool_error {r : Except PErr Unit} (h : r.toBool = false) :
    ∃ e, r = .error e := by
  cases r with
  | error e => exact ⟨e, rfl⟩
  | ok u => simp [Except.toBool] at h

theorem probeSuffix_finds (fs : String → Bool) (outRoot : String)
    (d : Date) :
    ∀ (fuel n N : Nat), n ≤ N → N - n < fuel →
      (∀ k, n ≤ k → k < N → fs (afternoonSufFile outRoot d k) = true) →
      fs (afternoonSufFile outRoot d N) = false →
      probeSuffix fs outRoot d fuel n = some N := by
  intro fuel
  induction fuel with
  | zero => intro n N h1 h2 _ _; omega
  | succ fuel ih =>
    intro n N h1 h2 hall hN
    unfold probeSuffix
    by_cases hn : n = N
    · subst hn
      simp [hN]
    · have hlt : n < N := by omega
      rw [if_pos (by simp [hall n (Nat.le_refl n) hlt])]
      exact ih (n + 1) N (by omega) (by omega)
        (fun k hk1 hk2 => hall k (by omega) hk2) hN

theorem joinPath_data (a b : String) :
    (joinPath a b).data = (a ++ "/").data ++ b.data := by
  simp [joinPath, String.data_append, List.append_assoc]

theorem joinPath_nested_data (a x b : String) :
    (joinPath (joinPath a x) b).data =
      (a ++ "/").data ++ (x.data ++ '/' :: b.data) := by
  simp [joinPath, String.data_append, List.append_assoc]

theorem process_file_trace_shape (env : Env) (outRoot : String)
    (fuel : Nat) (src : String) :
    ∀ e ∈ (process_file env outRoot fuel src).2,
      e = .statPoll src ∨
      (∃ x, e = .createDirAll (joinPath outRoot x)) ∨
      (∃ x y, e = .transcode src (joinPath (joinPath outRoot x) y) false) ∨
      (∃ x y f, e = .writeSidecar (joinPath (joinPath outRoot x) y) f) := by
  intro e he
  unfold process_file at he
  split at he
  · simp at he
  · split at he
    · simp at he
      subst he
      exact Or.inl rfl
    · split at he
      · simp at he
        subst he
        exact Or.inl rfl
      · rename_i d
        split at he
        · simp at he
          rcases he with rfl | rfl
          · exact Or.inl rfl
          · exact Or.inr (Or.inl ⟨_, rfl⟩)
        · split at he
          · simp at he
            rcases he with rfl | rfl
            · exact Or.inl rfl
            · exact Or.inr (Or.inl ⟨_, rfl⟩)
          · rename_i base title tag
            split at he
            · simp at he
              rcases he with rfl | rfl | rfl
              · exact Or.inl rfl
              · exact Or.inr (Or.inl ⟨_, rfl⟩)
              · exact Or.inr (Or.inr (Or.inl ⟨_, _, rfl⟩))
            · split at he
              · simp at he
                rcases he with rfl | rfl | rfl | rfl
                · exact Or.inl rfl
                · exact Or.inr (Or.inl ⟨_, rfl⟩)
                · exact Or.inr (Or.inr (Or.inl ⟨_, _, rfl⟩))
                · exact Or.inr (Or.inr (Or.inr ⟨_, _, _, rfl⟩))
              · simp at he
                rcases he with rfl | rfl | rfl | rfl
                · exact Or.inl rfl
                · exact Or.inr (Or.inl ⟨_, rfl⟩)
                · exact Or.inr (Or.inr (Or.inl ⟨_, _, rfl⟩))
                · exact Or.inr (Or.inr (Or.inr ⟨_, _, _, rfl⟩))

/-! Claim theorems. -/

/-- C1 counterexample: the claim says the stability counter is reset to
zero on any change, including a still-zero size.  In the source a
zero-size observation skips the whole update block, so the counter is
retained: from a state with counter 7 a zero-size poll leaves it at 7,
and on the run obsZ, which has a zero-size read followed by only eight
stable checks, the loop still fires at index 16, while under the
claim-side dynamics wait_run_claim it never fires. -/
theorem C1_zero_size_retains_counter :
    (wait_step ⟨5, 7, 7⟩ 0 0).1.stable_count = 7 ∧
    wait_run (waitInit 0) obsZ = some 16 ∧
    wait_run_claim (waitInit 0) obsZ = none := by decide

/-- C1 (amended): wait_for_file_ready reports success only when the
consecutive-stability counter reaches the required threshold of 15
checks and never earlier (from the initial state, success can fire at
poll index 15 at the earliest); the counter is incremented exactly
when the size is nonzero and both size and modification time equal the
recorded values, and is reset to zero on a nonzero size change or a
modification-time change; a zero-size observation leaves the state,
counter included, unchanged rather than resetting the counter. -/
theorem C1_stability_counter :
    (∀ st sz mt, sz = 0 → wait_step st sz mt = (st, false)) ∧
    (∀ (st : WaitState) (sz mt : Nat), 0 < sz → sz = st.last_size →
      mt = st.last_modified →
      wait_step st sz mt = (⟨sz, mt, st.stable_count + 1⟩,
        decide (required_stable_checks ≤ st.stable_count + 1))) ∧
    (∀ (st : WaitState) (sz mt : Nat), 0 < sz →
      (sz ≠ st.last_size ∨ mt ≠ st.last_modified) →
      wait_step st sz mt = (⟨sz, mt, 0⟩, false)) ∧
    (∀ (m0 : Nat) (obs : List (Nat × Nat)) (j : Nat),
      wait_run (waitInit m0) obs = some j → required_stable_checks ≤ j) :=
  ⟨wait_step_zero, wait_step_incr, wait_step_reset,
   fun m0 obs j h => wait_run_init_ge obs (waitInit m0) j rfl rfl h⟩

/-- Witness for C1: a zero-size poll leaves a counter of 3 unchanged, a
stable poll increments 3 to 4 without firing, and on sixteen identical
nonzero observations the loop fires exactly at index 15, which the
amended theorem bounds from below by the threshold. -/
theorem C1_stability_counter_witness :
    wait_step ⟨5, 7, 3⟩ 0 0 = (⟨5, 7, 3⟩, false) ∧
    wait_step ⟨5, 7, 3⟩ 5 7 = (⟨5, 7, 4⟩,
      decide (required_stable_checks ≤ 4)) ∧
    required_stable_checks ≤ 15 :=
  ⟨C1_stability_counter.1 ⟨5, 7, 3⟩ 0 0 rfl,
   C1_stability_counter.2.1 ⟨5, 7, 3⟩ 5 7 (by decide) rfl rfl,
   C1_stability_counter.2.2.2 0 obs16 15 (by decide)⟩

/-- C3: the dedup ledger is cleared exactly when its size exceeds 1000
immediately after an insert.  Marking up to 1000 distinct paths leaves
every marked path seen; marking 1001 distinct paths empties the ledger
entirely, after which every lookup, the first inserted path included,
behaves as not seen. -/
theorem C3_ledger_clear_at_cap (ps : List String) (h : ps.Nodup) :
    (ps.length ≤ 1000 → ∀ p ∈ ps, seen (markAll [] ps) p = true) ∧
    (ps.length = 1001 →
      markAll [] ps = [] ∧ ∀ p, seen (markAll [] ps) p = false) := by
  constructor
  · intro hlen p hp
    rw [markAll_app ps [] (by simpa using hlen) (by simp) h]
    simp [seen, hp]
  · intro hlen
    rcases List.eq_nil_or_concat ps with rfl | ⟨qs, a, rfl⟩
    · simp at hlen
    · simp only [List.concat_eq_append] at h hlen ⊢
      have hq : qs.length = 1000 := by simp at hlen; omega
      have hnd : qs.Nodup ∧ a ∉ qs := by
        rw [List.nodup_append] at h
        exact ⟨h.1, fun ha => h.2.2 ha (by simp)⟩
      have hqs : markAll [] (qs ++ [a]) = [] := by
        rw [markAll_split qs [a] [],
          markAll_app qs [] (by simp [hq]) (by simp) hnd.1]
        simp only [List.nil_append, markAll, markLedger]
        rw [if_neg hnd.2, if_pos (by simp [hq])]
      exact ⟨hqs, fun p => by simp [hqs, seen]⟩

/-- Witness for C3: 1001 distinct one-character-tagged paths clear the
ledger, and the first inserted path is no longer seen. -/
theorem C3_ledger_clear_at_cap_witness :
    markAll [] (ledgerOf 1001) = [] ∧
    seen (markAll [] (ledgerOf 1001)) (String.mk ['f', Char.ofNat 0]) =
      false := by
  have h := (C3_ledger_clear_at_cap (ledgerOf 1001)
    (ledgerOf_nodup 1001 (by norm_num))).2 (by simp [ledgerOf])
  exact ⟨h.1, h.2 _⟩

/-- C4: name resolution follows the ordered policy of the source: no
primary output for the date yields the primary category; primary
present but no secondary yields the plain secondary; both present
yields the secondary category with the smallest positive suffix N
whose filename does not exist, probed sequentially from 1. -/
theorem C4_naming_policy (fs : String → Bool) (outRoot : String)
    (d : Date) (fuel N : Nat) :
    (fs (divineFile outRoot d) = false →
      resolveName fs outRoot d fuel =
        some (divineBase d, divineTitle d, "Divine Worship Service")) ∧
    (fs (divineFile outRoot d) = true →
      fs (afternoonFile outRoot d) = false →
      resolveName fs outRoot d fuel =
        some (afternoonBase d, afternoonTitle d, "Afternoon Program")) ∧
    (fs (divineFile outRoot d) = true →
      fs (afternoonFile outRoot d) = true →
      1 ≤ N → N ≤ fuel →
      (∀ k, k < N → 1 ≤ k → fs (afternoonSufFile outRoot d k) = true) →
      fs (afternoonSufFile outRoot d N) = false →
      resolveName fs outRoot d fuel =
        some (afternoonBase d ++ " (" ++ Nat.repr N ++ ")",
              afternoonTitle d ++ " (" ++ Nat.repr N ++ ")",
              "Afternoon Program")) := by
  refine ⟨?_, ?_, ?_⟩
  · intro h1
    unfold resolveName
    rw [if_pos h1]
  · intro h1 h2
    unfold resolveName
    rw [if_neg (by simp [h1]), if_pos h2]
  · intro h1 h2 hN hfuel hall hN2
    unfold resolveName
    rw [if_neg (by simp [h1]), if_neg (by simp [h2])]
    rw [probeSuffix_finds fs outRoot d fuel 1 N hN (by omega)
      (fun k hk1 hk2 => hall k hk2 hk1) hN2]

/-- Witness for C4: for the scenario date with both plain files
present the third file gets suffix 1; with the first suffixed file
also present the fourth gets suffix 2; with an empty tree the primary
category is chosen. -/
theorem C4_naming_policy_witness :
    resolveName fsBoth "out" dec27 5 =
      some (afternoonBase dec27 ++ " (" ++ Nat.repr 1 ++ ")",
            afternoonTitle dec27 ++ " (" ++ Nat.repr 1 ++ ")",
            "Afternoon Program") ∧
    resolveName fsThree "out" dec27 5 =
      some (afternoonBase dec27 ++ " (" ++ Nat.repr 2 ++ ")",
            afternoonTitle dec27 ++ " (" ++ Nat.repr 2 ++ ")",
            "Afternoon Program") ∧
    resolveName (fun _ => false) "out" dec27 5 =
      some (divineBase dec27, divineTitle dec27,
            "Divine Worship Service") :=
  ⟨(C4_naming_policy fsBoth "out" dec27 5 1).2.2 (by decide) (by decide)
      (by decide) (by decide) (by decide) (by decide),
   (C4_naming_policy fsThree "out" dec27 5 2).2.2 (by decide) (by decide)
      (by decide) (by decide) (by decide) (by decide),
   (C4_naming_policy (fun _ => false) "out" dec27 5 0).1 rfl⟩

/-- C6 counterexample: the claim says extraction fails whenever the
stem does not match the exact zero-padded pattern.  The chrono parser
behind the source accepts one-to-width digit fields, leading
whitespace before numeric fields and signed years, so stems that are
not the canonical zero-padded rendering still succeed: a non-padded
stem, a plus-signed year, whitespace before the month and day digits,
and a negative year all parse. -/
theorem C6_accepts_non_padded :
    extract_date_from_filename "2024-1-5_18-42-36.mp4" =
      some ⟨2024, 1, 5, 18, 42, 36⟩ ∧
    ("2024-1-5_18-42-36.mp4").data ≠
      renderStem ⟨2024, 1, 5, 18, 42, 36⟩ ++ mp4Suffix ∧
    extract_date_from_filename "+2024-12-27_18-42-36.mp4" = some dec27 ∧
    extract_date_from_filename "2024- 1- 5_18-42-36.mp4" =
      some ⟨2024, 1, 5, 18, 42, 36⟩ ∧
    extract_date_from_filename "-0010-12-27_18-42-36.mp4" =
      some ⟨-10, 12, 27, 18, 42, 36⟩ := by decide

/-- C6 (amended): extract_date_from_filename, a pure function in the
model, succeeds exactly on filenames made of a stem accepted by the
chrono semantics of the fixed format string followed by the literal
lowercase mp4 suffix: a year field of optional whitespace then either
a sign with a digit run or one to four digits, and five further
fields of optional whitespace then one or two digits, joined by the
literal separators, with calendar-valid values including the
leap-second value 60; the returned timestamp carries the parsed field
values, and every other string fails with the format error, modelled
as none.  The canonical zero-padded rendering is accepted, but it is
not the only accepted form. -/
theorem C6_extract_date_flexible (f : String) (d : Date) :
    extract_date_from_filename f = some d ↔
      validDT d = true ∧ ∃ s1 s2 s3 s4 s5 s6 : List Char,
        f.data = s1 ++ '-' :: (s2 ++ '-' :: (s3 ++ '_' ::
          (s4 ++ '-' :: (s5 ++ '-' :: (s6 ++ mp4Suffix))))) ∧
        yearSeg d.year s1 ∧ field2 d.month s2 ∧ field2 d.day s3 ∧
        field2 d.hour s4 ∧ field2 d.minute s5 ∧ field2 d.second s6 := by
  constructor
  · intro h
    unfold extract_date_from_filename at h
    cases hdrop : dropMp4 f.data with
    | none => rw [hdrop] at h; simp at h
    | some stem =>
      rw [hdrop] at h
      obtain ⟨hv, s1, s2, s3, s4, s5, s6, hstem, hy, h2, h3, h4, h5, h6⟩ :=
        (parseStem_flex stem d).mp h
      refine ⟨hv, s1, s2, s3, s4, s5, s6, ?_, hy, h2, h3, h4, h5, h6⟩
      rw [(dropMp4_eq_some f.data stem).mp hdrop, hstem]
      simp
  · rintro ⟨hv, s1, s2, s3, s4, s5, s6, hdata, hy, h2, h3, h4, h5, h6⟩
    unfold extract_date_from_filename
    have hstem : f.data = (s1 ++ '-' :: (s2 ++ '-' :: (s3 ++ '_' ::
        (s4 ++ '-' :: (s5 ++ '-' :: s6))))) ++ mp4Suffix := by
      rw [hdata]
      simp
    rw [(dropMp4_eq_some f.data _).mpr hstem]
    exact (parseStem_flex _ d).mpr
      ⟨hv, s1, s2, s3, s4, s5, s6, rfl, hy, h2, h3, h4, h5, h6⟩

/-- C7: the end-to-end scenario.  The scenario filename parses to the
scenario date; the month directory is 2024/12-December under the
output root; with no existing outputs every stage succeeds, the
transcode targets the primary-category name containing December 27
2024, and the sidecar fields are the title, the constant show name,
season 2024, episode 1227, aired 2024-12-27, display season 2024,
display episode 1227 and the category tag. -/
theorem C7_end_to_end_scenario (outRoot : String) :
    extract_date_from_filename srcName = some dec27 ∧
    monthDir outRoot dec27 = joinPath outRoot "2024/12-December" ∧
    processOk envAll "out" 0 srcName = true ∧
    (process_file envAll "out" 0 srcName).2 =
      [.statPoll srcName,
       .createDirAll "out/2024/12-December",
       .transcode srcName
         ("out/2024/12-December/" ++
          "Divine Worship Service - RTSDA | December 27 2024.mp4") false,
       .writeSidecar
         ("out/2024/12-December/" ++
          "Divine Worship Service - RTSDA | December 27 2024.nfo")
         ⟨"Divine Worship Service - RTSDA | December 27 2024",
          "LiveStreams", "2024", "1227", "2024-12-27", "2024", "1227",
          "Divine Worship Service"⟩] :=
  ⟨by decide, rfl, by decide, by decide⟩

/-- C10: an event path whose canonicalization fails is silently
skipped by the event loop: the ledger is unchanged, the outcome is the
skip marker and no processing effect is issued. -/
theorem C10_no_canonical_silent_skip (env : Env) (outRoot : String)
    (fuel : Nat) (ledger : List String) (p : String)
    (h : env.canonical p = none) :
    handlePath env outRoot fuel ledger p = (ledger, .noCanon, []) := by
  unfold handlePath
  rw [h]

/-- Witness for C10: in the environment whose canonicalization always
fails, the scenario path is skipped with no ledger change and no
effects. -/
theorem C10_no_canonical_silent_skip_witness :
    handlePath envNoCanon "out" 0 [] srcName = ([], .noCanon, []) :=
  C10_no_canonical_silent_skip envNoCanon "out" 0 [] srcName rfl

/-- C2 counterexample: the claim says the dedup-ledger check and the
mark on completion apply to startup-scanned files exactly as to
event-delivered files.  In the source the startup scan neither
consults nor updates processed_files: a path already in the ledger is
still processed by the scan while the event loop skips it, and a
successful scan run leaves the ledger empty while the event loop marks
the path. -/
theorem C2_startup_ignores_ledger :
    (startupHandle envAll "out" 0 [srcName] srcName).2.1 = .ran true ∧
    (handlePath envAll "out" 0 [srcName] srcName).2.1 = .alreadySeen ∧
    (startupHandle envAll "out" 0 [] srcName).1 = [] ∧
    (handlePath envAll "out" 0 [] srcName).1 = [srcName] := by decide

/-- C2 (amended): the startup scan runs qualifying files through the
same per-file pipeline process_file as live events, pre-filtered by
the existence of the dated outputs instead of the dedup ledger: the
ledger is never consulted and never updated by the scan. -/
theorem C2_startup_scan_pipeline (env : Env) (outRoot : String)
    (fuel : Nat) (ledger : List String) (p : String) :
    (startupHandle env outRoot fuel ledger p).1 = ledger ∧
    (∀ d : Date, extension p = some "mp4" →
      extract_date_from_filename (fileName p) = some d →
      env.fsOut (divineFile outRoot d) = false →
      env.fsOut (afternoonFile outRoot d) = false →
      startupHandle env outRoot fuel ledger p =
        (ledger, .ran (processOk env outRoot fuel p),
         (process_file env outRoot fuel p).2)) := by
  constructor
  · unfold startupHandle
    split
    · rfl
    · split
      · rfl
      · split
        · split
          · rfl
          · rfl
        · rfl
  · intro d h1 h2 h3 h4
    unfold startupHandle
    rcases hpf : process_file env outRoot fuel p with ⟨r, tr⟩
    cases r with
    | ok u =>
      cases u
      simp [h1, h2, h3, h4, hpf, processOk, Except.toBool]
    | error e =>
      simp [h1, h2, h3, h4, hpf, processOk, Except.toBool]

/-- Witness for C2: the scan leaves a nonempty ledger unchanged, and on
the empty ledger it runs the pipeline on the scenario file with the
pipeline outcome and trace of process_file itself. -/
theorem C2_startup_scan_pipeline_witness :
    (startupHandle envAll "out" 0 [srcName] srcName).1 = [srcName] ∧
    startupHandle envAll "out" 0 [] srcName =
      ([], .ran (processOk envAll "out" 0 srcName),
       (process_file envAll "out" 0 srcName).2) := by
  constructor
  · exact (C2_startup_scan_pipeline envAll "out" 0 [srcName] srcName).1
  · exact (C2_startup_scan_pipeline envAll "out" 0 [] srcName).2 dec27
      (by decide) (by decide) rfl rfl

/-- C5 counterexample: with 1000 distinct paths already marked, all
reachable by 1000 successful runs from the empty ledger, a successful
run on a new path inserts it, the overflow check clears the whole
ledger, and feeding the same path again is not skipped: both feedings
reach the successful outcome, against exactly one, and the path is not
seen after its successful run. -/
theorem C5_overflow_clear_reprocesses :
    markAll [] (ledgerOf 1000) = ledgerOf 1000 ∧
    (handlePath envAll "out" 0 (ledgerOf 1000) srcName).1 = [] ∧
    (handlePath envAll "out" 0 (ledgerOf 1000) srcName).2.1 = .ranOk ∧
    (handlePath envAll "out" 0 [] srcName).2.1 = .ranOk := by
  refine ⟨?_, ?_, ?_, ?_⟩
  · have := markAll_app (ledgerOf 1000) [] (by simp [ledgerOf])
      (by simp) (ledgerOf_nodup 1000 (by norm_num))
    simpa using this
  · decide
  · decide
  · decide

/-- C5 (amended): for a canonicalizable path not yet in a ledger of
fewer than 1000 entries, a successful run marks the canonical path and
a second feeding is skipped at the dedup check with no effects, so
exactly one run reaches the successful outcome; a failed run leaves
the ledger unchanged, reports the pipeline error and does not mark, so
the path stays unseen.  When the mark pushes the ledger past 1000
entries the overflow clear erases it, the case of the counterexample.
-/
theorem C5_idempotence (env : Env) (outRoot : String) (fuel : Nat)
    (ledger : List String) (p c : String)
    (h1 : env.canonical p = some c) (h2 : c ∉ ledger)
    (h3 : ledger.length < 1000) :
    (processOk env outRoot fuel p = true →
      handlePath env outRoot fuel ledger p =
        (ledger ++ [c], .ranOk, (process_file env outRoot fuel p).2) ∧
      handlePath env outRoot fuel (ledger ++ [c]) p =
        (ledger ++ [c], .alreadySeen, [])) ∧
    (processOk env outRoot fuel p = false →
      (handlePath env outRoot fuel ledger p).1 = ledger ∧
      ∃ e, (handlePath env outRoot fuel ledger p).2.1 = .ranErr e) := by
  constructor
  · intro hok
    rcases hpf : process_file env outRoot fuel p with ⟨r, tr⟩
    have hr : r = .ok () := by
      unfold processOk at hok
      rw [hpf] at hok
      exact toBool_ok hok
    subst hr
    constructor
    · unfold handlePath
      simp [h1, seen, h2, hpf, markLedger_append h2 h3]
    · unfold handlePath
      simp [h1, seen]
  · intro hfail
    rcases hpf : process_file env outRoot fuel p with ⟨r, tr⟩
    obtain ⟨e, he⟩ : ∃ e, r = .error e := by
      unfold processOk at hfail
      rw [hpf] at hfail
      exact toBool_error hfail
    subst he
    unfold handlePath
    simp [h1, seen, h2, hpf]

/-- Witness for C5: on the empty ledger the scenario file is processed
once and marked, the second feeding is skipped, and in the environment
with a failing transcoder the ledger stays empty. -/
theorem C5_idempotence_witness :
    handlePath envAll "out" 0 [] srcName =
      ([srcName], .ranOk, (process_file envAll "out" 0 srcName).2) ∧
    handlePath envAll "out" 0 [srcName] srcName =
      ([srcName], .alreadySeen, []) ∧
    (handlePath envFfmpegFail "out" 0 [] srcName).1 = [] := by
  have hA := (C5_idempotence envAll "out" 0 [] srcName srcName rfl
    (by simp) (by simp)).1 (by decide)
  have hB := (C5_idempotence envFfmpegFail "out" 0 [] srcName srcName rfl
    (by simp) (by simp)).2 (by decide)
  exact ⟨by simpa using hA.1, by simpa using hA.2, hB.1⟩

/-- C8: no pipeline trace contains a remove or rename of any path, and
when the source path does not lie under the output root, as the fixed
watch and output directories of the service guarantee, no effect of
the trace writes to the source path: every write target of the
pipeline lies under the output root. -/
theorem C8_source_preserved (env : Env) (outRoot : String) (fuel : Nat)
    (src : String) (h : ¬ (outRoot ++ "/").data <+: src.data) :
    ∀ e ∈ (process_file env outRoot fuel src).2,
      writesTo e ≠ some src ∧ removesPath e src = false := by
  intro e he
  rcases process_file_trace_shape env outRoot fuel src e he with
    rfl | ⟨x, rfl⟩ | ⟨x, y, rfl⟩ | ⟨x, y, f, rfl⟩
  · exact ⟨by simp [writesTo], rfl⟩
  · refine ⟨?_, rfl⟩
    intro heq
    simp only [writesTo, Option.some.injEq] at heq
    exact h ⟨x.data, by rw [← heq, joinPath_data]⟩
  · refine ⟨?_, rfl⟩
    intro heq
    simp only [writesTo, Option.some.injEq] at heq
    exact h ⟨x.data ++ '/' :: y.data, by rw [← heq, joinPath_nested_data]⟩
  · refine ⟨?_, rfl⟩
    intro heq
    simp only [writesTo, Option.some.injEq] at heq
    exact h ⟨x.data ++ '/' :: y.data, by rw [← heq, joinPath_nested_data]⟩

/-- Witness for C8: the scenario source is not under the output root,
and the directory-creation effect of its trace neither writes to nor
removes the source path. -/
theorem C8_source_preserved_witness :
    writesTo (Effect.createDirAll (monthDir "out" dec27)) ≠
      some srcName ∧
    removesPath (Effect.createDirAll (monthDir "out" dec27)) srcName =
      false :=
  C8_source_preserved envAll "out" 0 srcName (by decide)
    (Effect.createDirAll (monthDir "out" dec27)) (by decide)

/-- C9: extension matching is exact and case-sensitive.  A path whose
extension is not the lowercase string mp4 is rejected by process_file
before any effect and is skipped by the startup scan; every filename
accepted by the date extractor ends in the literal lowercase mp4
suffix; and the uppercase variant of the scenario name has extension
MP4, is not mp4, and fails date extraction. -/
theorem C9_extension_exact (env : Env) (outRoot : String) (fuel : Nat)
    (ledger : List String) (p f : String) (d : Date)
    (hp : extension p ≠ some "mp4")
    (hf : extract_date_from_filename f = some d) :
    process_file env outRoot fuel p = (.error .notMp4, []) ∧
    startupHandle env outRoot fuel ledger p = (ledger, .notMp4, []) ∧
    (∃ stem, f.data = stem ++ mp4Suffix) ∧
    extension "2024-12-27_18-42-36.MP4" = some "MP4" ∧
    extract_date_from_filename "2024-12-27_18-42-36.MP4" = none := by
  refine ⟨?_, ?_, ?_, by decide, by decide⟩
  · unfold process_file
    rw [if_pos hp]
  · unfold startupHandle
    rw [if_pos hp]
  · exact extract_suffix hf

/-- Witness for C9: instantiated at the uppercase variant of the
scenario filename and at the scenario filename for the suffix shape.
-/
theorem C9_extension_exact_witness :
    process_file envAll "out" 0 "2024-12-27_18-42-36.MP4" =
      (.error .notMp4, []) ∧
    startupHandle envAll "out" 0 [] "2024-12-27_18-42-36.MP4" =
      ([], .notMp4, []) ∧
    (∃ stem, srcName.data = stem ++ mp4Suffix) ∧
    extension "2024-12-27_18-42-36.MP4" = some "MP4" ∧
    extract_date_from_filename "2024-12-27_18-42-36.MP4" = none :=
  C9_extension_exact envAll "out" 0 [] "2024-12-27_18-42-36.MP4"
    srcName dec27 (by decide) (by decide)

end Archiver
